import Mathlib

/-!
Verification development for pyrtty.py: a text → Baudot bitstream → AFSK
waveform pipeline.  Python strings are embedded as `List Char`; the Baudot
bitstream is a list of the characters '1' (mark) and '0' (space), exactly as
in the source, which concatenates the strings '1'/'0'.
-/

/-- Source constant CRLF = '\r\n'. -/
def CRLF : List Char := ['\r', '\n']

/-- Source constant LINE_WIDTH = 70. -/
def LINE_WIDTH : Nat := 70

/-- Source constant VALID_SPLITS = ' ,.;:!?-\t'. -/
def VALID_SPLITS : List Char := [' ', ',', '.', ';', ':', '!', '?', '-', '\t']

/-- Source constant MARK_CODE = '1'. -/
def MARK_CODE : Char := '1'

/-- Source constant SPACE_CODE = '0'. -/
def SPACE_CODE : Char := '0'

/-- Source constant START_BIT = MARK_CODE + SPACE_CODE (a two-character string). -/
def START_BIT : List Char := [MARK_CODE, SPACE_CODE]

/-- Source constant STOP_BIT = MARK_CODE. -/
def STOP_BIT : List Char := [MARK_CODE]

/-- Source lambda __wrap: symb ↦ START_BIT + symb + STOP_BIT. -/
def __wrap (symb : List Char) : List Char := START_BIT ++ symb ++ STOP_BIT

/-- The BAUDOT_CODE['letters'] sub-table of the source, as an association list
in the source's insertion order; dict lookup is modelled by `List.lookup`
(keys are distinct, so order is immaterial to lookup results). -/
def BAUDOT_letters : List (Char × List Char) :=
  [('A', __wrap ['1','1','0','0','0']), ('B', __wrap ['1','0','0','1','1']),
   ('C', __wrap ['0','1','1','1','0']), ('D', __wrap ['1','0','0','1','0']),
   ('E', __wrap ['1','0','0','0','0']), ('F', __wrap ['1','0','1','1','0']),
   ('G', __wrap ['0','1','0','1','1']), ('H', __wrap ['0','0','1','0','1']),
   ('I', __wrap ['0','1','1','0','0']), ('J', __wrap ['1','1','0','1','0']),
   ('K', __wrap ['1','1','1','1','0']), ('L', __wrap ['0','1','0','0','1']),
   ('M', __wrap ['0','0','1','1','1']), ('N', __wrap ['0','0','1','1','0']),
   ('O', __wrap ['0','0','0','1','1']), ('P', __wrap ['0','1','1','0','1']),
   ('Q', __wrap ['1','1','1','0','1']), ('R', __wrap ['0','1','0','1','0']),
   ('S', __wrap ['1','0','1','0','0']), ('T', __wrap ['0','0','0','0','1']),
   ('U', __wrap ['1','1','1','0','0']), ('V', __wrap ['0','1','1','1','1']),
   ('W', __wrap ['1','1','0','0','1']), ('X', __wrap ['1','0','1','1','1']),
   ('Y', __wrap ['1','0','1','0','1']), ('Z', __wrap ['1','0','0','0','1']),
   (' ', __wrap ['0','0','1','0','0']), ('\n', __wrap ['0','0','0','1','0']),
   ('\r', __wrap ['0','0','0','0','0'])]

/-- The BAUDOT_CODE['figures'] sub-table of the source.  The apostrophe key is
written `Char.ofNat 39` and the grave-accent key `Char.ofNat 96`. -/
def BAUDOT_figures : List (Char × List Char) :=
  [('1', __wrap ['1','1','1','0','1']), ('2', __wrap ['1','1','0','0','1']),
   ('3', __wrap ['1','0','0','0','0']), ('4', __wrap ['0','1','0','1','0']),
   ('5', __wrap ['0','0','0','0','1']), ('6', __wrap ['1','0','1','0','1']),
   ('7', __wrap ['1','1','1','0','0']), ('8', __wrap ['0','1','1','0','0']),
   ('9', __wrap ['0','0','0','1','1']), ('0', __wrap ['0','1','1','0','1']),
   ('-', __wrap ['1','1','0','0','0']), (Char.ofNat 39, __wrap ['1','1','0','1','0']),
   ('!', __wrap ['1','0','1','1','0']), ('&', __wrap ['0','1','0','1','1']),
   ('#', __wrap ['0','0','1','0','1']), ('(', __wrap ['1','1','1','1','0']),
   (')', __wrap ['0','1','0','0','1']), ('"', __wrap ['1','0','0','0','1']),
   ('/', __wrap ['1','0','1','1','1']), (':', __wrap ['0','1','1','1','0']),
   (';', __wrap ['0','1','1','1','1']), ('?', __wrap ['1','0','0','1','1']),
   (',', __wrap ['0','0','1','1','0']), ('.', __wrap ['0','0','1','1','1']),
   ('$', __wrap ['1','0','0','1','0']), (' ', __wrap ['0','0','1','0','0']),
   (Char.ofNat 96, __wrap ['1','1','0','1','0'])]

/-- BAUDOT_CODE['LTRS'] = __wrap('11111'). -/
def LTRS : List Char := __wrap ['1','1','1','1','1']

/-- BAUDOT_CODE['FIGS'] = __wrap('11011'). -/
def FIGS : List Char := __wrap ['1','1','0','1','1']

/-- The two shift states ('letters' / 'figures' strings in the source). -/
inductive Mode where
  | letters : Mode
  | figures : Mode
deriving DecidableEq

/-- The sub-table selected by a mode string, BAUDOT_CODE[mode]. -/
def modeTable : Mode → List (Char × List Char)
  | Mode.letters => BAUDOT_letters
  | Mode.figures => BAUDOT_figures

/-- The shift frame inserted for a mode: mode_shift['LTRS' if mode == 'letters'
else 'FIGS'] in the source. -/
def modeShiftFrame : Mode → List Char
  | Mode.letters => LTRS
  | Mode.figures => FIGS

/-- The body of the inner `for mode in ['letters', 'figures']` loop of
text_to_baudot for one character: given the current shift state, returns the
updated state and the frames appended to baudot_arr for this character.  The
source checks the letters table first and then the figures table, with no
break between them, appending a shift frame whenever current_mode differs
from the matching table's mode. -/
def processChar (current : Mode) (c : Char) : Mode × List (List Char) :=
  let step1 : Mode × List (List Char) :=
    match (BAUDOT_letters).lookup c with
    | none => (current, [])
    | some code =>
      if current ≠ Mode.letters then (Mode.letters, [modeShiftFrame Mode.letters, code])
      else (current, [code])
  match (BAUDOT_figures).lookup c with
  | none => step1
  | some code =>
    if step1.1 ≠ Mode.figures then (Mode.figures, step1.2 ++ [modeShiftFrame Mode.figures, code])
    else (step1.1, step1.2 ++ [code])

/-- The outer `for char in split_msg.upper()` loop of text_to_baudot: threads
the shift state through the characters and collects the emitted frames of
baudot_arr in order. -/
def encodeLoop (current : Mode) : List Char → List (List Char)
  | [] => []
  | c :: rest =>
    let s := processChar current c
    s.2 ++ encodeLoop s.1 rest

/-- Python whitespace as tested by str.rstrip / str.lstrip (the ASCII cases:
space, tab, newline, carriage return, vertical tab, form feed). -/
def isPySpace (c : Char) : Bool :=
  c = ' ' || c = '\t' || c = '\n' || c = '\r' || c = '\x0b' || c = '\x0c'

/-- str.lstrip(): drop leading whitespace. -/
def lstrip (s : List Char) : List Char := s.dropWhile isPySpace

/-- str.rstrip(): drop trailing whitespace. -/
def rstrip (s : List Char) : List Char := (s.reverse.dropWhile isPySpace).reverse

/-- The split-point scan of split_single_line: `for i in range(LINE_WIDTH - 1,
0, -1): if remaining_text[i] in VALID_SPLITS: split_idx = i + 1; break`, with
`split_idx = LINE_WIDTH` when the scan finds nothing.  The scanned indices are
69, 68, …, 1. -/
def split_idx (s : List Char) : Nat :=
  match ((List.range (LINE_WIDTH - 1)).map (fun k => LINE_WIDTH - 1 - k)).find?
      (fun i => (s.getD i ' ') ∈ VALID_SPLITS) with
  | some i => i + 1
  | none => LINE_WIDTH

/-- Auxiliary bound used for termination: lstrip never lengthens a list. -/
theorem lstrip_length_le (s : List Char) : (lstrip s).length ≤ s.length :=
  (List.dropWhile_sublist isPySpace).length_le

/-- rstrip never lengthens a list. -/
theorem rstrip_length_le (s : List Char) : (rstrip s).length ≤ s.length := by
  have h := (List.dropWhile_sublist (l := s.reverse) isPySpace).length_le
  simpa [rstrip] using h

/-- The scan result is at least 1 (indices scanned are ≥ 1, and the default is
LINE_WIDTH). -/
theorem split_idx_pos (s : List Char) : 1 ≤ split_idx s := by
  unfold split_idx
  cases h : ((List.range (LINE_WIDTH - 1)).map (fun k => LINE_WIDTH - 1 - k)).find?
      (fun i => (s.getD i ' ') ∈ VALID_SPLITS) with
  | none => simp [LINE_WIDTH]
  | some i => simp

/-- The scan result is at most LINE_WIDTH. -/
theorem split_idx_le (s : List Char) : split_idx s ≤ LINE_WIDTH := by
  unfold split_idx
  cases h : ((List.range (LINE_WIDTH - 1)).map (fun k => LINE_WIDTH - 1 - k)).find?
      (fun i => (s.getD i ' ') ∈ VALID_SPLITS) with
  | none => simp
  | some i =>
    have hmem := List.mem_of_find?_eq_some h
    simp only [List.mem_map, List.mem_range] at hmem
    obtain ⟨k, hk, rfl⟩ := hmem
    simp only []
    omega

/-- The `while len(remaining_text) > LINE_WIDTH` loop of split_single_line,
together with the final `if remaining_text: result_lines.append(...)`. -/
def ssl_loop (remaining : List Char) : List (List Char) :=
  if LINE_WIDTH < remaining.length then
    let si := split_idx remaining
    if si = LINE_WIDTH ∧ LINE_WIDTH < remaining.length then
      remaining.take si :: ssl_loop (remaining.drop si)
    else
      rstrip (remaining.take si) :: ssl_loop (lstrip (remaining.drop si))
  else if remaining.isEmpty then [] else [remaining]
termination_by remaining.length
decreasing_by
  · have h1 := split_idx_pos remaining
    simp only [List.length_drop]
    omega
  · have h1 := split_idx_pos remaining
    have h2 := lstrip_length_le (remaining.drop (split_idx remaining))
    simp only [List.length_drop] at h2 ⊢
    omega

/-- split_single_line: returns [line] when the line already fits, otherwise
runs the splitting loop. -/
def split_single_line (line : List Char) : List (List Char) :=
  if line.length ≤ LINE_WIDTH then [line] else ssl_loop line

/-- text.replace(CRLF, '\n'): left-to-right non-overlapping replacement of the
two-character sequence '\r\n' by '\n'. -/
def replaceCRLF : List Char → List Char
  | [] => []
  | [c] => [c]
  | c1 :: c2 :: rest =>
    if c1 = '\r' ∧ c2 = '\n' then '\n' :: replaceCRLF rest
    else c1 :: replaceCRLF (c2 :: rest)

/-- text.split('\n'): split on every newline, keeping empty pieces, as Python's
str.split with an explicit separator does. -/
def splitOnNL : List Char → List (List Char)
  | [] => [[]]
  | c :: rest =>
    if c = '\n' then [] :: splitOnNL rest
    else
      match splitOnNL rest with
      | [] => [[c]]
      | l :: ls => (c :: l) :: ls

/-- CRLF.join(lines). -/
def joinCRLF : List (List Char) → List Char
  | [] => []
  | [l] => l
  | l :: ls => l ++ '\r' :: '\n' :: joinCRLF ls

/-- split_message_into_lines: empty text is returned unchanged; text with
existing line breaks is split on them, each line is wrapped, and the results
are rejoined with CRLF; otherwise the single line is wrapped and joined. -/
def split_message_into_lines (text : List Char) : List Char :=
  if text.isEmpty then text
  else if (CRLF <:+: text) ∨ '\n' ∈ text then
    joinCRLF (((splitOnNL (replaceCRLF text)).map split_single_line).flatten)
  else
    joinCRLF (split_single_line text)

/-- text_to_baudot: prepend CRLF, wrap the message, upper-case it, run the
encoding loop starting in letters mode, and frame the result with the 20-mark
preamble, the defensive LTRS frame, and the trailing mark bit. -/
def text_to_baudot (text : List Char) : List Char :=
  let split_msg := split_message_into_lines (CRLF ++ text)
  let baudot_arr := encodeLoop Mode.letters (split_msg.map Char.toUpper)
  List.replicate 20 MARK_CODE ++ LTRS ++ baudot_arr.flatten ++ [MARK_CODE]

/-- Python's float modulo x % y for the phase computation (for positive y this
is x - y·⌊x / y⌋, which is what the source relies on with y = 2π). -/
noncomputable def pymod (x y : ℝ) : ℝ := x - y * (⌊x / y⌋ : ℤ)

/-- Python's int() truncation toward zero, used for int(sample_rate * duration). -/
noncomputable def int_trunc (x : ℝ) : ℤ := if 0 ≤ x then ⌊x⌋ else ⌈x⌉

/-- Line 154 of the source: final_phase = (initial_phase + 2·π·frequency·duration)
% (2·π). -/
noncomputable def final_phase (frequency duration initial_phase : ℝ) : ℝ :=
  pymod (initial_phase + 2 * Real.pi * frequency * duration) (2 * Real.pi)

/-- The sample list of generate_tone: np.sin(2π·f·t + φ) over
t = np.linspace(0, duration, num, endpoint=False), whose points are
i·duration/num. -/
noncomputable def tone_samples (frequency duration initial_phase : ℝ) (num : Nat) : List ℝ :=
  (List.range num).map
    (fun i => Real.sin (2 * Real.pi * frequency * ((i : ℝ) * duration / (num : ℝ)) + initial_phase))

/-- Errors the synthesizer can raise, mirroring the Python exception types. -/
inductive PyError where
  | zeroDivisionError : PyError
  | valueError : PyError
deriving DecidableEq

/-- generate_tone: computes num = int(sample_rate * duration); np.linspace
raises ValueError when num is negative, otherwise the samples and the carried
final phase are returned. -/
noncomputable def generate_tone (frequency duration sample_rate initial_phase : ℝ) :
    Except PyError (List ℝ × ℝ) :=
  let num := int_trunc (sample_rate * duration)
  if num < 0 then Except.error PyError.valueError
  else Except.ok (tone_samples frequency duration initial_phase num.toNat,
    final_phase frequency duration initial_phase)

/-- The `for bit in baudot_str` loop of baudot_to_afsk: selects mark_freq for a
'1' bit and space_freq otherwise, calls generate_tone with the carried phase,
and collects the tone segments. -/
noncomputable def afsk_loop (mark_freq space_freq sample_rate bit_duration : ℝ) :
    List Char → ℝ → Except PyError (List (List ℝ))
  | [], _ => Except.ok []
  | bit :: rest, phase =>
    let frequency := if bit = MARK_CODE then mark_freq else space_freq
    match generate_tone frequency bit_duration sample_rate phase with
    | Except.error e => Except.error e
    | Except.ok tp =>
      match afsk_loop mark_freq space_freq sample_rate bit_duration rest tp.2 with
      | Except.error e => Except.error e
      | Except.ok tones => Except.ok (tp.1 :: tones)

/-- baudot_to_afsk: bit_duration = 1 / baud_rate (ZeroDivisionError when the
baud rate is zero), the bit loop starting at phase 0, np.concatenate (which
raises ValueError on an empty list of segments), and the final scaling by amp. -/
noncomputable def baudot_to_afsk (baudot_str : List Char)
    (mark_freq space_freq sample_rate baud_rate amp : ℝ) : Except PyError (List ℝ) :=
  if baud_rate = 0 then Except.error PyError.zeroDivisionError
  else
    match afsk_loop mark_freq space_freq sample_rate (1 / baud_rate) baudot_str 0 with
    | Except.error e => Except.error e
    | Except.ok tones =>
      if tones.isEmpty then Except.error PyError.valueError
      else Except.ok (tones.flatten.map (fun x => amp * x))

/-- The (initial phase, final phase) pair of each successive generate_tone call
made by the bit loop of baudot_to_afsk, in order: phase 0 is passed to the
first call and each call's returned final phase is passed as the next call's
initial_phase (source line 172). -/
noncomputable def segment_phases (mark_freq space_freq bit_duration : ℝ) :
    List Char → ℝ → List (ℝ × ℝ)
  | [], _ => []
  | bit :: rest, phase =>
    let frequency := if bit = MARK_CODE then mark_freq else space_freq
    let phase' := final_phase frequency bit_duration phase
    (phase, phase') :: segment_phases mark_freq space_freq bit_duration rest phase'

/-- A character is mappable when it occurs in at least one of the two
sub-tables (`char in BAUDOT_CODE[mode]` for some mode). -/
def mappable (c : Char) : Bool :=
  (BAUDOT_letters.lookup c).isSome || (BAUDOT_figures.lookup c).isSome

/-- Every value stored in the letters sub-table is an 8-character frame. -/
theorem BAUDOT_letters_val_length : ∀ p ∈ BAUDOT_letters, p.2.length = 8 := by decide

/-- Every value stored in the figures sub-table is an 8-character frame. -/
theorem BAUDOT_figures_val_length : ∀ p ∈ BAUDOT_figures, p.2.length = 8 := by decide

/-- Lookup in an association list whose values all have length 8 yields a value
of length 8. -/
theorem lookup_val_length {l : List (Char × List Char)}
    (hl : ∀ p ∈ l, p.2.length = 8) :
    ∀ {c : Char} {code : List Char}, l.lookup c = some code → code.length = 8 := by
  induction l with
  | nil => intro c code h; simp [List.lookup] at h
  | cons p t ih =>
    intro c code h
    rw [List.lookup] at h
    cases hb : c == p.1 with
    | true =>
      rw [hb] at h
      simp only [] at h
      cases h
      exact hl p (List.mem_cons_self ..)
    | false =>
      rw [hb] at h
      simp only [] at h
      exact ih (fun q hq => hl q (List.mem_cons_of_mem _ hq)) h

/-- Every frame emitted by processChar for one character has exactly 8 bits. -/
theorem processChar_frame_length (m : Mode) (c : Char) :
    ∀ f ∈ (processChar m c).2, f.length = 8 := by
  intro f hf
  unfold processChar at hf
  cases hL : BAUDOT_letters.lookup c <;> cases hF : BAUDOT_figures.lookup c <;>
    cases m <;> simp only [hL, hF] at hf <;>
    simp [modeShiftFrame] at hf
  all_goals rcases hf with rfl | rfl | rfl | rfl
  all_goals
    first
      | exact lookup_val_length BAUDOT_letters_val_length hL
      | exact lookup_val_length BAUDOT_figures_val_length hF
      | decide

/-- Every frame collected by the encoding loop has exactly 8 bits. -/
theorem encodeLoop_frame_length :
    ∀ (chars : List Char) (m : Mode), ∀ f ∈ encodeLoop m chars, f.length = 8 := by
  intro chars
  induction chars with
  | nil => intro m f hf; simp [encodeLoop] at hf
  | cons c rest ih =>
    intro m f hf
    simp only [encodeLoop, List.mem_append] at hf
    rcases hf with hf | hf
    · exact processChar_frame_length m c f hf
    · exact ih _ f hf

/-- Flattening a list of 8-character frames yields 8 bits per frame. -/
theorem flatten_length_of_frames (L : List (List Char)) (h : ∀ f ∈ L, f.length = 8) :
    L.flatten.length = 8 * L.length := by
  induction L with
  | nil => simp
  | cons f t ih =>
    have hf := h f (List.mem_cons_self ..)
    have ht := ih (fun g hg => h g (List.mem_cons_of_mem _ hg))
    simp [List.flatten_cons, hf, ht, Nat.mul_succ, Nat.mul_add]
    omega

/-- A character in neither sub-table leaves the mode unchanged and emits no
frames. -/
theorem processChar_unmappable (m : Mode) (c : Char) (h : mappable c = false) :
    processChar m c = (m, []) := by
  unfold mappable at h
  rw [Bool.or_eq_false_iff] at h
  have h1 : BAUDOT_letters.lookup c = none := by
    cases hL : BAUDOT_letters.lookup c
    · rfl
    · rw [hL] at h; simp at h
  have h2 : BAUDOT_figures.lookup c = none := by
    cases hF : BAUDOT_figures.lookup c
    · rfl
    · rw [hF] at h; simp at h
  unfold processChar
  rw [h1, h2]

/-- Dropping the unmappable characters of the input does not change the
encoding loop's output. -/
theorem encodeLoop_filter_mappable :
    ∀ (chars : List Char) (m : Mode),
      encodeLoop m (chars.filter mappable) = encodeLoop m chars := by
  intro chars
  induction chars with
  | nil => intro m; rfl
  | cons c rest ih =>
    intro m
    by_cases hc : mappable c
    · rw [List.filter_cons_of_pos hc]
      simp only [encodeLoop]
      rw [ih]
    · rw [List.filter_cons_of_neg (by simpa using hc)]
      have h0 : processChar m c = (m, []) := processChar_unmappable m c (by simpa using hc)
      simp only [encodeLoop, h0, List.nil_append]
      exact ih m

/-- segment_phases records one pair per bit. -/
theorem segment_phases_length (mf sf d : ℝ) :
    ∀ (bits : List Char) (p : ℝ), (segment_phases mf sf d bits p).length = bits.length := by
  intro bits
  induction bits with
  | nil => intro p; rfl
  | cons b rest ih => intro p; simp [segment_phases, ih]

/-- The first generate_tone call of the loop receives exactly the loop's
incoming phase. -/
theorem segment_phases_head (mf sf d : ℝ) :
    ∀ (bits : List Char) (p : ℝ), bits ≠ [] →
      ((segment_phases mf sf d bits p).getD 0 (0, 0)).1 = p := by
  intro bits p h
  cases bits with
  | nil => exact absurd rfl h
  | cons b rest => simp [segment_phases]

/-- Adjacent segments agree: the final phase of segment n is the initial phase
of segment n+1. -/
theorem segment_phases_chain (mf sf d : ℝ) :
    ∀ (bits : List Char) (p : ℝ) (n : Nat), n + 1 < (segment_phases mf sf d bits p).length →
      ((segment_phases mf sf d bits p).getD (n + 1) (0, 0)).1
        = ((segment_phases mf sf d bits p).getD n (0, 0)).2 := by
  intro bits
  induction bits with
  | nil => intro p n h; simp [segment_phases] at h
  | cons b rest ih =>
    intro p n h
    rw [segment_phases_length] at h
    simp only [List.length_cons] at h
    cases n with
    | zero =>
      have hrest : rest ≠ [] := by
        intro he; rw [he] at h; simp at h
      simp only [segment_phases, List.getD_cons_succ, List.getD_cons_zero]
      exact segment_phases_head mf sf d rest _ hrest
    | succ n =>
      simp only [segment_phases, List.getD_cons_succ]
      exact ih _ n (by rw [segment_phases_length]; omega)

/-- Each segment's recorded final phase is exactly the source's formula applied
to its recorded initial phase and that bit's frequency. -/
theorem segment_phases_step (mf sf d : ℝ) :
    ∀ (bits : List Char) (p : ℝ) (n : Nat), n < (segment_phases mf sf d bits p).length →
      ((segment_phases mf sf d bits p).getD n (0, 0)).2
        = final_phase (if bits.getD n MARK_CODE = MARK_CODE then mf else sf) d
            ((segment_phases mf sf d bits p).getD n (0, 0)).1 := by
  intro bits
  induction bits with
  | nil => intro p n h; simp [segment_phases] at h
  | cons b rest ih =>
    intro p n h
    rw [segment_phases_length] at h
    simp only [List.length_cons] at h
    cases n with
    | zero => simp [segment_phases]
    | succ n =>
      simp only [segment_phases, List.getD_cons_succ]
      exact ih _ n (by rw [segment_phases_length]; omega)

/-- On the success path, generate_tone's returned phase is exactly final_phase. -/
theorem generate_tone_ok_phase (f d sr p : ℝ) (t : List ℝ) (p' : ℝ)
    (h : generate_tone f d sr p = Except.ok (t, p')) : p' = final_phase f d p := by
  unfold generate_tone at h
  by_cases hn : int_trunc (sr * d) < 0
  · simp [hn] at h
  · simp only [hn, if_false] at h
    cases h
    rfl

/-- When the per-bit sample count is non-negative, the synthesis loop succeeds
and its n-th tone segment is generated from the n-th initial phase recorded by
segment_phases: the phase bookkeeping of segment_phases is exactly the phase
threading of afsk_loop. -/
theorem afsk_loop_eq_segment_phases (mf sf sr d : ℝ)
    (h : ¬ int_trunc (sr * d) < 0) :
    ∀ (bits : List Char) (p : ℝ),
      afsk_loop mf sf sr d bits p = Except.ok
        (List.zipWith
          (fun bit q => tone_samples (if bit = MARK_CODE then mf else sf) d
            (Prod.fst q) (int_trunc (sr * d)).toNat)
          bits (segment_phases mf sf d bits p)) := by
  intro bits
  induction bits with
  | nil => intro p; rfl
  | cons b rest ih =>
    intro p
    simp only [afsk_loop, generate_tone, segment_phases]
    rw [if_neg h]
    simp only [ih, List.zipWith]

/-- Characters of lstrip s come from s. -/
theorem lstrip_subset (s : List Char) : ∀ c ∈ lstrip s, c ∈ s :=
  fun _ hc => (List.dropWhile_sublist isPySpace).subset hc

/-- Characters of rstrip s come from s. -/
theorem rstrip_subset (s : List Char) : ∀ c ∈ rstrip s, c ∈ s := by
  intro c hc
  unfold rstrip at hc
  rw [List.mem_reverse] at hc
  have := (List.dropWhile_sublist (l := s.reverse) isPySpace).subset hc
  rwa [List.mem_reverse] at this

/-- Every line produced by the splitting loop fits in LINE_WIDTH. -/
theorem mem_ssl_loop_length_le (s : List Char) :
    ∀ l ∈ ssl_loop s, l.length ≤ LINE_WIDTH := by
  induction s using ssl_loop.induct with
  | case1 x hx si hsi ih =>
    intro l hl
    rw [ssl_loop, if_pos hx, if_pos hsi] at hl
    rcases List.mem_cons.1 hl with rfl | hl
    · rw [List.length_take]
      have := split_idx_le x
      omega
    · exact ih l hl
  | case2 x hx si hsi ih =>
    intro l hl
    rw [ssl_loop, if_pos hx, if_neg hsi] at hl
    rcases List.mem_cons.1 hl with rfl | hl
    · have h1 := rstrip_length_le (x.take (split_idx x))
      rw [List.length_take] at h1
      have := split_idx_le x
      omega
    · exact ih l hl
  | case3 x hx hemp =>
    intro l hl
    rw [ssl_loop, if_neg hx, if_pos hemp] at hl
    simp at hl
  | case4 x hx hemp =>
    intro l hl
    rw [ssl_loop, if_neg hx, if_neg hemp] at hl
    rcases List.mem_cons.1 hl with rfl | hl
    · omega
    · simp at hl

/-- Characters of the loop's output lines come from the input. -/
theorem mem_of_mem_ssl_loop (s : List Char) :
    ∀ l ∈ ssl_loop s, ∀ c ∈ l, c ∈ s := by
  induction s using ssl_loop.induct with
  | case1 x hx si hsi ih =>
    intro l hl c hc
    rw [ssl_loop, if_pos hx, if_pos hsi] at hl
    rcases List.mem_cons.1 hl with rfl | hl
    · exact List.mem_of_mem_take hc
    · exact List.mem_of_mem_drop (ih l hl c hc)
  | case2 x hx si hsi ih =>
    intro l hl c hc
    rw [ssl_loop, if_pos hx, if_neg hsi] at hl
    rcases List.mem_cons.1 hl with rfl | hl
    · exact List.mem_of_mem_take (rstrip_subset _ c hc)
    · exact List.mem_of_mem_drop (lstrip_subset _ c (ih l hl c hc))
  | case3 x hx hemp =>
    intro l hl
    rw [ssl_loop, if_neg hx, if_pos hemp] at hl
    simp at hl
  | case4 x hx hemp =>
    intro l hl c hc
    rw [ssl_loop, if_neg hx, if_neg hemp] at hl
    rcases List.mem_cons.1 hl with rfl | hl
    · exact hc
    · simp at hl

/-- The loop never returns an empty list of lines on an over-long input. -/
theorem ssl_loop_ne_nil (s : List Char) (h : LINE_WIDTH < s.length) :
    ssl_loop s ≠ [] := by
  rw [ssl_loop, if_pos h]
  by_cases hsi : split_idx s = LINE_WIDTH ∧ LINE_WIDTH < s.length
  · rw [if_pos hsi]; exact List.cons_ne_nil _ _
  · rw [if_neg hsi]; exact List.cons_ne_nil _ _

/-- A line that already fits is returned unchanged as a single line. -/
theorem split_single_line_of_le (s : List Char) (h : s.length ≤ LINE_WIDTH) :
    split_single_line s = [s] := by
  unfold split_single_line
  rw [if_pos h]

/-- split_single_line never returns an empty list of lines. -/
theorem split_single_line_ne_nil (s : List Char) : split_single_line s ≠ [] := by
  unfold split_single_line
  by_cases h : s.length ≤ LINE_WIDTH
  · rw [if_pos h]; exact List.cons_ne_nil _ _
  · rw [if_neg h]; exact ssl_loop_ne_nil s (by omega)

/-- Every line produced by split_single_line fits in LINE_WIDTH. -/
theorem mem_split_single_line_length_le (s : List Char) :
    ∀ l ∈ split_single_line s, l.length ≤ LINE_WIDTH := by
  intro l hl
  unfold split_single_line at hl
  by_cases h : s.length ≤ LINE_WIDTH
  · rw [if_pos h] at hl
    rcases List.mem_cons.1 hl with rfl | hl
    · exact h
    · simp at hl
  · rw [if_neg h] at hl
    exact mem_ssl_loop_length_le s l hl

/-- Characters of split_single_line's output come from the input line. -/
theorem mem_of_mem_split_single_line (s : List Char) :
    ∀ l ∈ split_single_line s, ∀ c ∈ l, c ∈ s := by
  intro l hl c hc
  unfold split_single_line at hl
  by_cases h : s.length ≤ LINE_WIDTH
  · rw [if_pos h] at hl
    rcases List.mem_cons.1 hl with rfl | hl
    · exact hc
    · simp at hl
  · rw [if_neg h] at hl
    exact mem_of_mem_ssl_loop s l hl c hc

/-- On a nonempty input the loop agrees with split_single_line. -/
theorem ssl_loop_eq_split_single_line (s : List Char) (h : s ≠ []) :
    ssl_loop s = split_single_line s := by
  unfold split_single_line
  by_cases hlen : s.length ≤ LINE_WIDTH
  · rw [if_pos hlen, ssl_loop, if_neg (by omega), if_neg (by simpa [List.isEmpty_iff] using h)]
  · rw [if_neg hlen]

/-- splitOnNL always returns at least one (possibly empty) piece. -/
theorem splitOnNL_ne_nil (s : List Char) : splitOnNL s ≠ [] := by
  induction s with
  | nil => exact List.cons_ne_nil _ _
  | cons c rest ih =>
    unfold splitOnNL
    by_cases hc : c = '\n'
    · rw [if_pos hc]; exact List.cons_ne_nil _ _
    · rw [if_neg hc]
      cases h : splitOnNL rest with
      | nil => exact List.cons_ne_nil _ _
      | cons l ls => exact List.cons_ne_nil _ _

/-- The pieces of splitOnNL contain no newline. -/
theorem nlfree_of_mem_splitOnNL (s : List Char) :
    ∀ l ∈ splitOnNL s, '\n' ∉ l := by
  induction s with
  | nil =>
    intro l hl
    rcases List.mem_cons.1 hl with rfl | hl
    · simp
    · simp at hl
  | cons c rest ih =>
    intro l hl
    unfold splitOnNL at hl
    by_cases hc : c = '\n'
    · rw [if_pos hc] at hl
      rcases List.mem_cons.1 hl with rfl | hl
      · simp
      · exact ih l hl
    · rw [if_neg hc] at hl
      cases h : splitOnNL rest with
      | nil =>
        rw [h] at hl
        rcases List.mem_cons.1 hl with rfl | hl
        · intro hm
          exact hc (List.mem_singleton.1 hm).symm
        · simp at hl
      | cons l0 ls =>
        rw [h] at hl
        rcases List.mem_cons.1 hl with rfl | hl
        · intro hmem
          rcases List.mem_cons.1 hmem with he | hmem
          · exact hc he.symm
          · exact ih l0 (h ▸ List.mem_cons_self ..) hmem
        · exact ih l (h ▸ List.mem_cons_of_mem _ hl)

/-- Unfolding equation for splitOnNL on a cons cell. -/
theorem splitOnNL_cons (c : Char) (r : List Char) :
    splitOnNL (c :: r) =
      if c = '\n' then [] :: splitOnNL r
      else
        match splitOnNL r with
        | [] => [[c]]
        | l :: ls => (c :: l) :: ls := by
  rw [splitOnNL]

/-- Unfolding equation for replaceCRLF on two leading characters. -/
theorem replaceCRLF_cons2 (c1 c2 : Char) (r : List Char) :
    replaceCRLF (c1 :: c2 :: r) =
      if c1 = '\r' ∧ c2 = '\n' then '\n' :: replaceCRLF r
      else c1 :: replaceCRLF (c2 :: r) := by
  rw [replaceCRLF]

/-- A newline-free list is one single piece. -/
theorem splitOnNL_nlfree (l : List Char) (h : '\n' ∉ l) : splitOnNL l = [l] := by
  induction l with
  | nil => rfl
  | cons c t ih =>
    have hc : c ≠ '\n' := fun he => h (he ▸ List.mem_cons_self ..)
    have ht : '\n' ∉ t := fun hm => h (List.mem_cons_of_mem _ hm)
    rw [splitOnNL_cons, if_neg hc, ih ht]

/-- Splitting after a newline-free prefix peels it off as the first piece. -/
theorem splitOnNL_append (l rest : List Char) (h : '\n' ∉ l) :
    splitOnNL (l ++ '\n' :: rest) = l :: splitOnNL rest := by
  induction l with
  | nil =>
    show splitOnNL ('\n' :: rest) = [] :: splitOnNL rest
    rw [splitOnNL_cons, if_pos rfl]
  | cons c t ih =>
    have hc : c ≠ '\n' := fun he => h (he ▸ List.mem_cons_self ..)
    have ht : '\n' ∉ t := fun hm => h (List.mem_cons_of_mem _ hm)
    show splitOnNL (c :: (t ++ '\n' :: rest)) = (c :: t) :: splitOnNL rest
    rw [splitOnNL_cons, if_neg hc, ih ht]

/-- replaceCRLF is the identity on newline-free text. -/
theorem replaceCRLF_nlfree (l : List Char) (h : '\n' ∉ l) : replaceCRLF l = l := by
  induction l using replaceCRLF.induct with
  | case1 => rfl
  | case2 c => rfl
  | case3 c1 c2 rest hcr ih =>
    exact absurd (hcr.2 ▸ List.mem_cons_of_mem c1 (List.mem_cons_self ..)) h
  | case4 c1 c2 rest hcr ih =>
    have ht : '\n' ∉ c2 :: rest := fun hm => h (List.mem_cons_of_mem _ hm)
    rw [replaceCRLF_cons2, if_neg hcr, ih ht]

/-- replaceCRLF maps a newline-free prefix followed by CRLF to the prefix
followed by a lone newline. -/
theorem replaceCRLF_sep (l rest : List Char) (h : '\n' ∉ l) :
    replaceCRLF (l ++ '\r' :: '\n' :: rest) = l ++ '\n' :: replaceCRLF rest := by
  induction l with
  | nil =>
    show replaceCRLF ('\r' :: '\n' :: rest) = '\n' :: replaceCRLF rest
    rw [replaceCRLF_cons2, if_pos ⟨rfl, rfl⟩]
  | cons c t ih =>
    have ht : '\n' ∉ t := fun hm => h (List.mem_cons_of_mem _ hm)
    cases t with
    | nil =>
      show replaceCRLF (c :: '\r' :: '\n' :: rest) = c :: '\n' :: replaceCRLF rest
      rw [replaceCRLF_cons2, if_neg (by rintro ⟨-, h2⟩; exact absurd h2 (by decide)),
        replaceCRLF_cons2, if_pos ⟨rfl, rfl⟩]
    | cons d t' =>
      have hd : d ≠ '\n' := fun he => ht (he ▸ List.mem_cons_self ..)
      show replaceCRLF (c :: d :: (t' ++ '\r' :: '\n' :: rest)) =
        (c :: d :: t') ++ '\n' :: replaceCRLF rest
      rw [replaceCRLF_cons2, if_neg (by rintro ⟨-, h2⟩; exact hd h2)]
      rw [← List.cons_append, ih ht]
      simp

/-- Joining newline-free lines with CRLF and then normalising and re-splitting
recovers exactly the lines. -/
theorem splitOnNL_replaceCRLF_joinCRLF (L : List (List Char)) (hne : L ≠ [])
    (h : ∀ l ∈ L, '\n' ∉ l) :
    splitOnNL (replaceCRLF (joinCRLF L)) = L := by
  induction L with
  | nil => exact absurd rfl hne
  | cons l ls ih =>
    cases ls with
    | nil =>
      show splitOnNL (replaceCRLF l) = [l]
      rw [replaceCRLF_nlfree l (h l (List.mem_cons_self ..)),
        splitOnNL_nlfree l (h l (List.mem_cons_self ..))]
    | cons l2 ls' =>
      have hl : '\n' ∉ l := h l (List.mem_cons_self ..)
      show splitOnNL (replaceCRLF (l ++ '\r' :: '\n' :: joinCRLF (l2 :: ls'))) = _
      rw [replaceCRLF_sep _ _ hl, splitOnNL_append _ _ hl,
        ih (List.cons_ne_nil _ _) (fun g hg => h g (List.mem_cons_of_mem _ hg))]

/-- The list of wrapped lines (processed_lines in the source) that
split_message_into_lines joins with CRLF, for nonempty input. -/
def processedLines (text : List Char) : List (List Char) :=
  if (CRLF <:+: text) ∨ '\n' ∈ text then
    ((splitOnNL (replaceCRLF text)).map split_single_line).flatten
  else split_single_line text

/-- For nonempty input, split_message_into_lines is the CRLF-join of its
processed lines. -/
theorem split_message_into_lines_eq (text : List Char) (h : text ≠ []) :
    split_message_into_lines text = joinCRLF (processedLines text) := by
  unfold split_message_into_lines processedLines
  rw [if_neg (by simpa [List.isEmpty_iff] using h)]
  by_cases hc : (CRLF <:+: text) ∨ '\n' ∈ text
  · rw [if_pos hc, if_pos hc]
  · rw [if_neg hc, if_neg hc]

/-- There is always at least one processed line. -/
theorem processedLines_ne_nil (text : List Char) : processedLines text ≠ [] := by
  unfold processedLines
  by_cases hc : (CRLF <:+: text) ∨ '\n' ∈ text
  · rw [if_pos hc]
    obtain ⟨a, as, hsplit⟩ := List.exists_cons_of_ne_nil (splitOnNL_ne_nil (replaceCRLF text))
    rw [hsplit]
    simp only [List.map_cons, List.flatten_cons]
    intro hemp
    rcases List.append_eq_nil.1 hemp with ⟨h1, -⟩
    exact split_single_line_ne_nil a h1
  · rw [if_neg hc]
    exact split_single_line_ne_nil text

/-- Every processed line fits in LINE_WIDTH. -/
theorem mem_processedLines_length_le (text : List Char) :
    ∀ l ∈ processedLines text, l.length ≤ LINE_WIDTH := by
  intro l hl
  unfold processedLines at hl
  by_cases hc : (CRLF <:+: text) ∨ '\n' ∈ text
  · rw [if_pos hc] at hl
    rw [List.mem_flatten] at hl
    obtain ⟨piece, hpiece, hlp⟩ := hl
    rw [List.mem_map] at hpiece
    obtain ⟨line, -, rfl⟩ := hpiece
    exact mem_split_single_line_length_le line l hlp
  · rw [if_neg hc] at hl
    exact mem_split_single_line_length_le text l hl

/-- Every processed line is newline-free. -/
theorem nlfree_of_mem_processedLines (text : List Char) :
    ∀ l ∈ processedLines text, '\n' ∉ l := by
  intro l hl
  unfold processedLines at hl
  by_cases hc : (CRLF <:+: text) ∨ '\n' ∈ text
  · rw [if_pos hc] at hl
    rw [List.mem_flatten] at hl
    obtain ⟨piece, hpiece, hlp⟩ := hl
    rw [List.mem_map] at hpiece
    obtain ⟨line, hline, rfl⟩ := hpiece
    intro hnl
    exact nlfree_of_mem_splitOnNL (replaceCRLF text) line hline
      (mem_of_mem_split_single_line line l hlp '\n' hnl)
  · rw [if_neg hc] at hl
    push_neg at hc
    intro hnl
    exact hc.2 (mem_of_mem_split_single_line text l hl '\n' hnl)

/-- Re-splitting the output of split_message_into_lines recovers exactly the
processed lines. -/
theorem lines_of_split_message (text : List Char) (h : text ≠ []) :
    splitOnNL (replaceCRLF (split_message_into_lines text)) = processedLines text := by
  rw [split_message_into_lines_eq text h]
  exact splitOnNL_replaceCRLF_joinCRLF (processedLines text) (processedLines_ne_nil text)
    (nlfree_of_mem_processedLines text)

/-- Wrapping lines that already fit is the identity on the line list. -/
theorem flatten_map_split_single_line (L : List (List Char))
    (h : ∀ l ∈ L, l.length ≤ LINE_WIDTH) :
    ((L.map split_single_line)).flatten = L := by
  induction L with
  | nil => rfl
  | cons l ls ih =>
    simp only [List.map_cons, List.flatten_cons]
    rw [split_single_line_of_le l (h l (List.mem_cons_self ..)),
      ih (fun g hg => h g (List.mem_cons_of_mem _ hg))]
    rfl

/-- The CRLF-join of at least two lines contains a newline. -/
theorem nl_mem_joinCRLF (l1 l2 : List Char) (ls : List (List Char)) :
    '\n' ∈ joinCRLF (l1 :: l2 :: ls) := by
  show '\n' ∈ l1 ++ '\r' :: '\n' :: joinCRLF (l2 :: ls)
  rw [List.mem_append]
  exact Or.inr (List.mem_cons_of_mem _ (List.mem_cons_self ..))

/-- When an over-long line has no valid split character at all, the backward
scan finds nothing and split_idx stays at LINE_WIDTH. -/
theorem split_idx_of_no_splits (s : List Char) (hlen : LINE_WIDTH < s.length)
    (h : ∀ c ∈ s, c ∉ VALID_SPLITS) : split_idx s = LINE_WIDTH := by
  unfold split_idx
  have hfind : ((List.range (LINE_WIDTH - 1)).map (fun k => LINE_WIDTH - 1 - k)).find?
      (fun i => (s.getD i ' ') ∈ VALID_SPLITS) = none := by
    rw [List.find?_eq_none]
    intro i hi
    rw [List.mem_map] at hi
    obtain ⟨k, hk, rfl⟩ := hi
    rw [List.mem_range] at hk
    have hilt : LINE_WIDTH - 1 - k < s.length := by
      unfold LINE_WIDTH at *
      omega
    rw [List.getD_eq_getElem s ' ' hilt]
    simp only [decide_eq_true_eq]
    exact h _ (List.getElem_mem hilt)
  rw [hfind]

/-- An over-long line with no valid split characters is hard-split exactly at
LINE_WIDTH, with no characters stripped. -/
theorem split_single_line_hard_split (s : List Char)
    (hs : ∀ c ∈ s, c ∉ VALID_SPLITS) (hlen : LINE_WIDTH < s.length) :
    split_single_line s = s.take LINE_WIDTH :: split_single_line (s.drop LINE_WIDTH) := by
  have hsi := split_idx_of_no_splits s hlen hs
  have hd : s.drop LINE_WIDTH ≠ [] := by
    intro he
    have := congrArg List.length he
    rw [List.length_drop] at this
    simp only [List.length_nil] at this
    omega
  rw [split_single_line, if_neg (by omega)]
  rw [ssl_loop, if_pos hlen, if_pos ⟨hsi, hlen⟩, hsi]
  rw [ssl_loop_eq_split_single_line _ hd]


/-! ## Claim theorems -/

/-- Claim C7: Line-width bound of the wrapper.  For every input text, no line of the
wrapped output exceeds LINE_WIDTH (70); a single run with no valid break
character is hard-split exactly at the width; a segment of length exactly the
width is not broken; and empty input is returned unchanged with no leading
break inserted. -/
theorem line_width_bound :
    (∀ (text : List Char), ∀ l ∈ splitOnNL (replaceCRLF (split_message_into_lines text)),
        l.length ≤ LINE_WIDTH)
    ∧ (∀ s : List Char, (∀ c ∈ s, c ∉ VALID_SPLITS) → LINE_WIDTH < s.length →
        split_single_line s = s.take LINE_WIDTH :: split_single_line (s.drop LINE_WIDTH))
    ∧ (∀ s : List Char, s.length = LINE_WIDTH → split_single_line s = [s])
    ∧ split_message_into_lines [] = [] := by
  refine ⟨?_, ?_, ?_, rfl⟩
  · intro text l hl
    by_cases ht : text = []
    · subst ht
      have h0 : split_message_into_lines [] = [] := rfl
      rw [h0] at hl
      have h1 : splitOnNL (replaceCRLF []) = [[]] := rfl
      rw [h1] at hl
      rcases List.mem_cons.1 hl with rfl | hl
      · simp
      · simp at hl
    · rw [lines_of_split_message text ht] at hl
      exact mem_processedLines_length_le text l hl
  · exact split_single_line_hard_split
  · intro s h
    exact split_single_line_of_le s (le_of_eq h)

/-- Witness for C7: instantiates the line bound on the empty text, the
hard-split clause on a run of 71 letters, and the exact-width clause on a run
of 70 letters. -/
theorem line_width_bound_witness :
    (([] : List Char) ∈ splitOnNL (replaceCRLF (split_message_into_lines []))
      ∧ ([] : List Char).length ≤ LINE_WIDTH)
    ∧ ((∀ c ∈ List.replicate 71 'A', c ∉ VALID_SPLITS)
      ∧ LINE_WIDTH < (List.replicate 71 'A').length
      ∧ split_single_line (List.replicate 71 'A')
          = (List.replicate 71 'A').take LINE_WIDTH
            :: split_single_line ((List.replicate 71 'A').drop LINE_WIDTH))
    ∧ ((List.replicate 70 'A').length = LINE_WIDTH
      ∧ split_single_line (List.replicate 70 'A') = [List.replicate 70 'A']) :=
  ⟨⟨by decide, line_width_bound.1 [] [] (by decide)⟩,
   ⟨by decide, by decide,
     line_width_bound.2.1 (List.replicate 71 'A') (by decide) (by decide)⟩,
   ⟨by decide, line_width_bound.2.2.1 (List.replicate 70 'A') (by decide)⟩⟩

/-- Claim C9: Idempotence of wrapping.  Applying split_message_into_lines to its own
output returns that output unchanged: no new breaks are inserted. -/
theorem wrap_idempotent (text : List Char) :
    split_message_into_lines (split_message_into_lines text)
      = split_message_into_lines text := by
  by_cases ht : text = []
  · subst ht
    rfl
  · rw [split_message_into_lines_eq text ht]
    have hlen := mem_processedLines_length_le text
    have hnl := nlfree_of_mem_processedLines text
    obtain ⟨l, ls, hL⟩ := List.exists_cons_of_ne_nil (processedLines_ne_nil text)
    rw [hL] at hlen hnl ⊢
    cases ls with
    | nil =>
      show split_message_into_lines l = joinCRLF [l]
      by_cases hle : l = []
      · subst hle
        rfl
      · have hnly : '\n' ∉ l := hnl l (List.mem_cons_self ..)
        unfold split_message_into_lines
        rw [if_neg (by simpa [List.isEmpty_iff] using hle)]
        rw [if_neg (by
          rintro (hinf | hmem)
          · exact hnly (hinf.subset (by simp [CRLF]))
          · exact hnly hmem)]
        rw [split_single_line_of_le l (hlen l (List.mem_cons_self ..))]
    | cons l2 ls' =>
      have hmem : '\n' ∈ joinCRLF (l :: l2 :: ls') := nl_mem_joinCRLF l l2 ls'
      have hne : joinCRLF (l :: l2 :: ls') ≠ [] := List.ne_nil_of_mem hmem
      unfold split_message_into_lines
      rw [if_neg (by simpa [List.isEmpty_iff] using hne), if_pos (Or.inr hmem)]
      rw [splitOnNL_replaceCRLF_joinCRLF (l :: l2 :: ls') (List.cons_ne_nil _ _) hnl]
      rw [flatten_map_split_single_line _ hlen]

/-- Claim C8 (code divergence): when the valid split character sits exactly at index
LINE_WIDTH - 1 = 69, split_idx equals LINE_WIDTH and the code takes the
no-split hard branch: the split character (a space) is kept untrimmed at the
end of the current line and the continuation's leading whitespace is kept. -/
theorem width_minus_one_split_not_trimmed :
    split_single_line (List.replicate 69 'A' ++ [' ', ' ', 'B'])
      = [List.replicate 69 'A' ++ [' '], [' ', 'B']]
    ∧ rstrip (List.replicate 69 'A' ++ [' ']) ≠ List.replicate 69 'A' ++ [' '] := by
  constructor
  · have hlen : LINE_WIDTH < (List.replicate 69 'A' ++ [' ', ' ', 'B']).length := by decide
    have hsi : split_idx (List.replicate 69 'A' ++ [' ', ' ', 'B']) = LINE_WIDTH := by decide
    have hd : (List.replicate 69 'A' ++ [' ', ' ', 'B']).drop LINE_WIDTH = [' ', 'B'] := by
      decide
    have htk : (List.replicate 69 'A' ++ [' ', ' ', 'B']).take LINE_WIDTH
        = List.replicate 69 'A' ++ [' '] := by decide
    rw [split_single_line, if_neg (by decide)]
    rw [ssl_loop, if_pos hlen, if_pos ⟨hsi, hlen⟩, hsi, hd, htk]
    rw [ssl_loop, if_neg (by decide), if_neg (by decide)]
  · decide

/-- Claim C3 (code divergence): a space, which occurs in both sub-tables, is not
resolved by the letters sub-table alone: in letters mode the encoder emits the
letters space frame, then a FIGS shift frame, then the figures space frame,
because the inner mode loop has no break. -/
theorem letters_priority_violated_on_space :
    encodeLoop Mode.letters [' ']
      = [__wrap ['0','0','1','0','0'], FIGS, __wrap ['0','0','1','0','0']]
    ∧ (encodeLoop Mode.letters [' ']).length ≠ 1 := by
  constructor
  · decide
  · decide

/-- Claim C4 (code divergence): processing a space in letters mode emits a FIGS shift
frame although the character is available in the current letters table, and
leaves the encoder in figures mode, forcing a compensating LTRS frame before
the next letter: " A" encodes to five frames instead of the two frames the
claimed shift discipline predicts. -/
theorem shift_discipline_violated_on_space :
    encodeLoop Mode.letters [' ', 'A']
      = [__wrap ['0','0','1','0','0'], FIGS, __wrap ['0','0','1','0','0'],
         LTRS, __wrap ['1','1','0','0','0']]
    ∧ (encodeLoop Mode.letters [' ', 'A']).length ≠ 2
    ∧ encodeLoop Mode.letters ['A', 'B']
        = [__wrap ['1','1','0','0','0'], __wrap ['1','0','0','1','1']] := by
  refine ⟨?_, ?_, ?_⟩
  · decide
  · decide
  · decide

/-- Claim C2 (counterexample): the frame emitted for 'A' has 8 bits, not 7, because
START_BIT is the two-character string mark-then-space. -/
theorem frame_is_seven_bits_counterexample :
    ((encodeLoop Mode.letters ['A']).map List.length = [8])
    ∧ ¬ ((encodeLoop Mode.letters ['A']).map List.length = [7]) := by
  constructor
  · decide
  · decide

/-- Claim C2 (amended): every framed unit is exactly 8 bits (one mark bit and one
space bit of START_BIT, the 5 data bits in table order, one mark stop bit), so
the bitstream of text_to_baudot is the 20-mark preamble plus 8 bits for the
defensive LTRS frame plus 8 bits per emitted frame (mapped characters plus
shift frames) plus the single trailing mark bit. -/
theorem frame_structure_eight_bits (text : List Char) :
    (text_to_baudot text).length
      = 20 + 8 * (1 + (encodeLoop Mode.letters
          ((split_message_into_lines (CRLF ++ text)).map Char.toUpper)).length) + 1 := by
  unfold text_to_baudot
  simp only [List.length_append, List.length_replicate, List.length_cons]
  rw [flatten_length_of_frames _ (encodeLoop_frame_length _ Mode.letters)]
  have hL : LTRS.length = 8 := by decide
  rw [hL]
  simp
  omega

/-- Claim C5: Unmappable characters are dropped, never raised.  The encoder is a
total function; a character in neither sub-table leaves the mode unchanged and
emits no frames, and filtering out the unmappable characters of the encoder's
input leaves its output unchanged. -/
theorem unmappable_silently_dropped :
    (∀ (m : Mode) (c : Char), mappable c = false → processChar m c = (m, []))
    ∧ (∀ (chars : List Char) (m : Mode),
        encodeLoop m (chars.filter mappable) = encodeLoop m chars) :=
  ⟨processChar_unmappable, encodeLoop_filter_mappable⟩

/-- Witness for C5 at the unmappable character percent. -/
theorem unmappable_silently_dropped_witness :
    mappable '%' = false ∧ processChar Mode.letters '%' = (Mode.letters, []) :=
  ⟨by decide, unmappable_silently_dropped.1 Mode.letters '%' (by decide)⟩

/-- The flattened per-line wrapping of any split is never empty. -/
theorem flatten_map_ssl_ne_nil (s : List Char) :
    ((splitOnNL s).map split_single_line).flatten ≠ [] := by
  obtain ⟨a, as, hsplit⟩ := List.exists_cons_of_ne_nil (splitOnNL_ne_nil s)
  rw [hsplit]
  simp only [List.map_cons, List.flatten_cons]
  intro hemp
  rcases List.append_eq_nil.1 hemp with ⟨h1, -⟩
  exact split_single_line_ne_nil a h1

/-- The wrapped form of CRLF ++ text always starts with the CR LF pair. -/
theorem smil_crlf_prefix (text : List Char) :
    ∃ r, split_message_into_lines (CRLF ++ text) = '\r' :: '\n' :: r := by
  obtain ⟨m, ms, hM⟩ :=
    List.exists_cons_of_ne_nil (flatten_map_ssl_ne_nil (replaceCRLF text))
  refine ⟨joinCRLF (m :: ms), ?_⟩
  have hne : CRLF ++ text ≠ [] := by simp [CRLF]
  have hmem : '\n' ∈ CRLF ++ text := by simp [CRLF]
  unfold split_message_into_lines
  rw [if_neg (by simpa [List.isEmpty_iff] using hne), if_pos (Or.inr hmem)]
  have h1 : replaceCRLF (CRLF ++ text) = '\n' :: replaceCRLF text := by
    show replaceCRLF ('\r' :: '\n' :: text) = _
    rw [replaceCRLF_cons2, if_pos ⟨rfl, rfl⟩]
  rw [h1]
  have h2 : splitOnNL ('\n' :: replaceCRLF text) = [] :: splitOnNL (replaceCRLF text) := by
    rw [splitOnNL_cons, if_pos rfl]
  rw [h2]
  simp only [List.map_cons, List.flatten_cons]
  have h3 : split_single_line [] = [[]] := rfl
  rw [h3, List.singleton_append, hM]
  rfl

/-- Claim C10 (implicit): text_to_baudot prepends CR LF, so for every text the frame
sequence after the 20-mark preamble and the defensive LTRS frame begins with
the CR character frame and then the LF character frame. -/
theorem crlf_prepended_frames (text : List Char) :
    ∃ r, text_to_baudot text
      = List.replicate 20 MARK_CODE ++ LTRS
        ++ __wrap ['0','0','0','0','0'] ++ __wrap ['0','0','0','1','0'] ++ r := by
  obtain ⟨r0, hr⟩ := smil_crlf_prefix text
  refine ⟨(encodeLoop Mode.letters (r0.map Char.toUpper)).flatten ++ [MARK_CODE], ?_⟩
  unfold text_to_baudot
  rw [hr]
  show List.replicate 20 MARK_CODE ++ LTRS
      ++ (encodeLoop Mode.letters (('\r' :: '\n' :: r0).map Char.toUpper)).flatten
      ++ [MARK_CODE] = _
  have hup : ('\r' :: '\n' :: r0).map Char.toUpper
      = '\r' :: '\n' :: r0.map Char.toUpper := by
    have hcr : Char.toUpper '\r' = '\r' := by decide
    have hlf : Char.toUpper '\n' = '\n' := by decide
    simp only [List.map_cons, hcr, hlf]
  rw [hup]
  have henc : encodeLoop Mode.letters ('\r' :: '\n' :: r0.map Char.toUpper)
      = __wrap ['0','0','0','0','0'] :: __wrap ['0','0','0','1','0']
        :: encodeLoop Mode.letters (r0.map Char.toUpper) := rfl
  rw [henc]
  simp only [List.flatten_cons]
  simp [List.append_assoc]

/-- Claim C1: Phase continuity of synthesis.  For every bit string, the initial phase
of tone segment n+1 equals the final phase of segment n (exact equality of the
carried value), the first segment starts at phase 0, and each segment's final
phase is (startPhase + 2·π·frequency·duration) mod 2·π for that bit's
frequency. -/
theorem phase_continuity_of_synthesis (mark_freq space_freq bit_duration : ℝ)
    (bits : List Char) :
    (∀ n : Nat,
      n + 1 < (segment_phases mark_freq space_freq bit_duration bits 0).length →
      ((segment_phases mark_freq space_freq bit_duration bits 0).getD (n + 1) (0, 0)).1
        = ((segment_phases mark_freq space_freq bit_duration bits 0).getD n (0, 0)).2)
    ∧ (∀ n : Nat,
      n < (segment_phases mark_freq space_freq bit_duration bits 0).length →
      ((segment_phases mark_freq space_freq bit_duration bits 0).getD n (0, 0)).2
        = pymod (((segment_phases mark_freq space_freq bit_duration bits 0).getD n (0, 0)).1
            + 2 * Real.pi
              * (if bits.getD n MARK_CODE = MARK_CODE then mark_freq else space_freq)
            * bit_duration) (2 * Real.pi))
    ∧ (bits ≠ [] →
      ((segment_phases mark_freq space_freq bit_duration bits 0).getD 0 (0, 0)).1 = 0) := by
  refine ⟨segment_phases_chain mark_freq space_freq bit_duration bits 0, ?_,
    segment_phases_head mark_freq space_freq bit_duration bits 0⟩
  intro n hn
  rw [segment_phases_step mark_freq space_freq bit_duration bits 0 n hn]
  rfl

/-- Witness for C1 on the two-bit string mark-space at the default mark and
space frequencies and 75 baud. -/
theorem phase_continuity_of_synthesis_witness :
    ((0 : Nat) + 1 < (segment_phases (1575 : ℝ) 2425 (1 / 75) ['1', '0'] 0).length
      ∧ ((segment_phases (1575 : ℝ) 2425 (1 / 75) ['1', '0'] 0).getD (0 + 1) (0, 0)).1
          = ((segment_phases (1575 : ℝ) 2425 (1 / 75) ['1', '0'] 0).getD 0 (0, 0)).2)
    ∧ ((0 : Nat) < (segment_phases (1575 : ℝ) 2425 (1 / 75) ['1', '0'] 0).length
      ∧ ((segment_phases (1575 : ℝ) 2425 (1 / 75) ['1', '0'] 0).getD 0 (0, 0)).2
          = pymod (((segment_phases (1575 : ℝ) 2425 (1 / 75) ['1', '0'] 0).getD 0 (0, 0)).1
              + 2 * Real.pi
                * (if ['1', '0'].getD 0 MARK_CODE = MARK_CODE then (1575 : ℝ) else 2425)
              * (1 / 75)) (2 * Real.pi))
    ∧ ((['1', '0'] : List Char) ≠ []
      ∧ ((segment_phases (1575 : ℝ) 2425 (1 / 75) ['1', '0'] 0).getD 0 (0, 0)).1 = 0) := by
  have hlen : (segment_phases (1575 : ℝ) 2425 (1 / 75) ['1', '0'] 0).length = 2 := by
    rw [segment_phases_length]
    rfl
  have h01 : (0 : Nat) + 1 < (segment_phases (1575 : ℝ) 2425 (1 / 75) ['1', '0'] 0).length := by
    rw [hlen]
    omega
  have h0 : (0 : Nat) < (segment_phases (1575 : ℝ) 2425 (1 / 75) ['1', '0'] 0).length := by
    rw [hlen]
    omega
  exact ⟨⟨h01, (phase_continuity_of_synthesis 1575 2425 (1 / 75) ['1', '0']).1 0 h01⟩,
    ⟨h0, (phase_continuity_of_synthesis 1575 2425 (1 / 75) ['1', '0']).2.1 0 h0⟩,
    ⟨by decide, (phase_continuity_of_synthesis 1575 2425 (1 / 75) ['1', '0']).2.2 (by decide)⟩⟩

/-- Claim C6 (code divergence): no configuration validation is performed.  With
sample_rate = 0 (a non-positive sample rate) and the default 75 baud, the
synthesizer runs to completion and returns an empty waveform instead of
failing before synthesis: every bit's tone has int(0 · bit_duration) = 0
samples. -/
theorem zero_sample_rate_yields_empty_waveform :
    baudot_to_afsk [MARK_CODE] 1575 2425 0 75 1 = Except.ok [] := by
  have hn : int_trunc ((0 : ℝ) * (1 / 75)) = 0 := by
    unfold int_trunc
    rw [if_pos (by norm_num)]
    norm_num
  have hnn : ¬ int_trunc ((0 : ℝ) * (1 / 75)) < 0 := by
    rw [hn]
    decide
  have hloop := afsk_loop_eq_segment_phases 1575 2425 0 (1 / 75) hnn [MARK_CODE] 0
  unfold baudot_to_afsk
  rw [if_neg (by norm_num : (75 : ℝ) ≠ 0), hloop]
  have hz : List.zipWith
      (fun bit q => tone_samples (if bit = MARK_CODE then (1575 : ℝ) else 2425) (1 / 75)
        (Prod.fst q) (int_trunc ((0 : ℝ) * (1 / 75))).toNat)
      [MARK_CODE] (segment_phases 1575 2425 (1 / 75) [MARK_CODE] 0) = [[]] := by
    have hn0 : int_trunc (0 : ℝ) = 0 := by
      unfold int_trunc
      rw [if_pos le_rfl]
      norm_num
    simp [segment_phases, List.zipWith_cons_cons, List.zipWith_nil_right, hn, hn0,
      Int.toNat_zero, tone_samples, List.range_zero, List.map_nil]
  rw [hz]
  simp
